import Mathlib

/-!
Shallow embedding of `src/OtherResources/framer.py` (the iTerm2 framer agent)
and proofs about its process registry, process-tree monitor, diffing,
output framing, autopoll task and error paths.

Python dictionaries are modelled as association lists with Python's dict
semantics (insertion order preserved; inserting an existing key replaces the
value in place).  Python lists of pids are Lean `List Int`.  Exceptions that
escape a handler are modelled with `Except PyError`.  Every outbound line of
the agent goes through `send`, modelled as a function from the `QUITTING`
flag and the text to the list of lines actually written to stdout.
-/

namespace Framer

/-- Exceptions that can escape a request handler in the source.  `nameError`
is raised by referring to the undefined name `error` in `handle_kill`;
`typeError` is raised by `len(None)` in `handle_poll`'s debug log line. -/
inductive PyError where
  | nameError
  | typeError
  deriving DecidableEq

/- ## Python dict as an association list -/

/-- Python `d[k] = v`: replace the value at `k` in place if present
(keeping its position), else append at the end. -/
def dictInsert {α β : Type} [DecidableEq α] (k : α) (v : β) :
    List (α × β) → List (α × β)
  | [] => [(k, v)]
  | (k', v') :: rest =>
      if k = k' then (k, v) :: rest else (k', v') :: dictInsert k v rest

/-- Python `d.get(k)` / `k in d` lookup. -/
def dictGet {α β : Type} [DecidableEq α] (k : α) : List (α × β) → Option β
  | [] => none
  | (k', v') :: rest => if k = k' then some v' else dictGet k rest

/-- Python `k in d`. -/
def dictMem {α β : Type} [DecidableEq α] (k : α) (d : List (α × β)) : Bool :=
  (dictGet k d).isSome

/- ## Outbound writes (`send`, `begin`, `end`) -/

/-- `send(text)`: the only path to stdout.  When `QUITTING` is set the line
is logged and dropped; otherwise exactly one line is printed. -/
def send (quitting : Bool) (text : String) : List String :=
  if quitting then [] else [text]

/-- `begin(identifier)`: the line `begin <identifier>`. -/
def beginLine (identifier : Nat) : String :=
  "begin " ++ toString identifier

/-- `end(identifier, status)`: the line `end <identifier> <status>`. -/
def endLine (identifier : Nat) (status : Int) : String :=
  "end " ++ toString identifier ++ " " ++ toString status

/-- `handle()` wraps each handler call in try/except: the agent quits only
when the handler returned `True`; an exception that escapes the handler is
logged and swallowed, and the agent keeps running. -/
def shouldQuitAfter (result : Except PyError Bool) : Bool :=
  match result with
  | .ok b => b
  | .error _ => false

/- ## Registered set (`register` / `deregister`) -/

/-- `register(pid)`: append `pid` to `REGISTERED` unless already present. -/
def register (pid : Int) (reg : List Int) : List Int :=
  if pid ∈ reg then reg else reg ++ [pid]

/-- `deregister(pid)`: remove the first occurrence of `pid` from
`REGISTERED` if present (Python `list.remove`). -/
def deregister (pid : Int) (reg : List Int) : List Int :=
  if pid ∈ reg then reg.erase pid else reg

/- ## `handle_kill` -/

/-- `handle_kill(identifier, args)` after `pid = int(args[0])` succeeded.
Returns the lines emitted, the pids signalled with SIGTERM, and the
handler's outcome.  When `pid not in PROCESSES` the source calls
`begin(identifier)` and then `error(identifier, 1)` — but `error` is an
undefined name, so a `NameError` is raised right after the `begin` line;
no `end` line is ever emitted on that path.  `PROCESSES` is never mutated
by this handler. -/
def handle_kill (processes : List Int) (identifier : Nat) (pid : Int) :
    List String × List Int × Except PyError Bool :=
  if pid ∈ processes then
    ([beginLine identifier, endLine identifier 0], [pid], .ok false)
  else
    ([beginLine identifier], [], .error .nameError)

/- ## `handle_poll` -/

/-- `handle_poll(identifier, args)` given the value returned by `poll()`
(`none` models Python `None`, returned when `ps` exited non-zero).  The
handler's first statement logs
`f'handle_poll(...): read {len(output)} bytes of output'`; evaluating the
f-string calls `len(output)`, which raises `TypeError` when `output` is
`None` — before `begin(identifier)` is ever reached.  So on the failure
path nothing at all is emitted and the explicit `end(identifier, 1)`
branch is dead code. -/
def handle_poll (identifier : Nat) (output : Option (List String)) :
    List String × Except PyError Bool :=
  match output with
  | none => ([], .error .typeError)
  | some lines =>
      (beginLine identifier :: lines ++ [endLine identifier 0], .ok false)

/- ## Autopoll state (`AUTOPOLL`, `AUTOPOLL_TASK`) -/

/-- The agent's autopoll bookkeeping.  `armed` models the integer global
`AUTOPOLL`, which only ever holds 0 or 1 in the source and is tested for
truthiness (`if AUTOPOLL:`), so it is modelled as a `Bool`.  `task` models
`AUTOPOLL_TASK`: `some t` holds the id of the task object it points at,
whether that task is still running or already finished.  `live` records the
ids of background autopoll tasks that currently exist (created and not yet
finished or cancelled); `nextId` supplies fresh task ids. -/
structure AutopollState where
  armed : Bool
  task : Option Nat
  live : List Nat
  nextId : Nat
  deriving DecidableEq

/-- `handle_autopoll(identifier, args)` without the `begin`/`end 0` framing
(which is emitted unconditionally first): if `AUTOPOLL` is truthy, return;
else set `AUTOPOLL = 1`; if `AUTOPOLL_TASK is not None`, return; else
create the background task.  The returned `Bool` reports whether a new
task was created. -/
def handle_autopoll (s : AutopollState) : AutopollState × Bool :=
  if s.armed then (s, false)
  else
    match s.task with
    | some t => ({ s with armed := true, task := some t }, false)
    | none =>
        ({ s with armed := true, task := some s.nextId,
                  live := s.live ++ [s.nextId], nextId := s.nextId + 1 }, true)

/-- Events that touch the autopoll state: an `autopoll` request, a `reset`
request (`AUTOPOLL = 0`, task untouched), a `quit` request (cancel the task
and clear `AUTOPOLL_TASK`), the background task finishing on its own (its
coroutine returns, e.g. after the `TypeError` on a failed poll — the handle
in `AUTOPOLL_TASK` keeps pointing at the finished task), and any other
request (no effect). -/
inductive AgentEvent where
  | autopollReq
  | resetReq
  | quitReq
  | taskFinished
  | otherReq
  deriving DecidableEq

/-- One step of the autopoll bookkeeping for a single event. -/
def autopollStep (s : AutopollState) : AgentEvent → AutopollState
  | .autopollReq => (handle_autopoll s).1
  | .resetReq => { s with armed := false }
  | .quitReq =>
      match s.task with
      | some t => { s with task := none, live := s.live.erase t }
      | none => s
  | .taskFinished =>
      match s.task with
      | some t => { s with live := s.live.erase t }
      | none => s
  | .otherReq => s

/-- The agent starts with `AUTOPOLL = 0` and `AUTOPOLL_TASK = None`. -/
def autopollInit : AutopollState := ⟨false, none, [], 0⟩

/-- Run a sequence of events from a state. -/
def autopollRun (s : AutopollState) : List AgentEvent → AutopollState
  | [] => s
  | e :: es => autopollRun (autopollStep s e) es

/- ## The autopoll background loop -/

/-- The body of `autopoll(delay)` as a function of the successive values
returned by its `poll()` calls (`none` = `ps` failed) and of the stream of
random identifiers it would mint, producing the lines sent.  Each
iteration: `output = await poll()`; then `if not len(output)` — when
`output` is `None` this raises `TypeError`, which falls through to the
outer `except Exception` and ends the task, so nothing further is ever
emitted.  An empty diff sleeps and loops; a non-empty diff is framed in
`%autopoll <id>` / `%end <id>` lines. -/
def autopollEmit : List (Option (List String)) → List Nat → List String
  | [], _ => []
  | none :: _, _ => []
  | some [] :: rest, ids => autopollEmit rest ids
  | some (d :: ds) :: rest, ids =>
      ("%autopoll " ++ toString (ids.headD 0)) :: (d :: ds) ++
        ("%end " ++ toString (ids.headD 0)) :: autopollEmit rest ids.tail

/- ## Base64 and `print_output` -/

/-- The base64 alphabet. -/
def b64chars : List Char :=
  "ABCDEFGHIJKLMNOPQRSTUVWXYZabcdefghijklmnopqrstuvwxyz0123456789+/".data

/-- The base64 digit for a 6-bit value. -/
def b64char (n : Nat) : Char := b64chars.getD n 'A'

/-- Standard base64 encoding (`base64.b64encode`) of a byte sequence,
bytes given as naturals below 256. -/
def b64encode : List Nat → List Char
  | [] => []
  | [a] => [b64char (a / 4), b64char (a % 4 * 16), '=', '=']
  | [a, b] => [b64char (a / 4), b64char (a % 4 * 16 + b / 16),
               b64char (b % 16 * 4), '=']
  | a :: b :: c :: rest =>
      b64char (a / 4) :: b64char (a % 4 * 16 + b / 16) ::
      b64char (b % 16 * 4 + c / 64) :: b64char (c % 64) :: b64encode rest

/-- `for i in range(0, len(encoded), 128)`: split into chunks of 128
characters; the final chunk may be shorter; an empty input yields no
chunks. -/
def wrap128 : List Char → List (List Char)
  | [] => []
  | c :: cs => ((c :: cs).take 128) :: wrap128 ((c :: cs).drop 128)
  termination_by l => l.length
  decreasing_by
    simp [List.length_drop]
    omega

/-- `print_output(identifier, pid, channel, islogin, data)`: the `%output`
header (channel is the literal `-1` for login shells, else the channel
number), the base64 payload wrapped at 128 characters, and the `%end`
trailer.  The read pump for both `run` and `login` children passes
`channel = 1` (the single PTY stream). -/
def print_output (identifier : Nat) (pid : Int) (channel : Int)
    (islogin : Bool) (data : List Nat) : List String :=
  (if islogin then
    "%output " ++ toString identifier ++ " " ++ toString pid ++ " -1"
   else
    "%output " ++ toString identifier ++ " " ++ toString pid ++ " " ++
      toString channel)
  :: (wrap128 (b64encode data)).map String.mk
  ++ ["%end " ++ toString identifier]

/- ## `procmon_parse`: parsing `ps` output -/

/-- One captured row of `ps -eo pid,ppid,stat,lstart,command` output:
the five capture groups of the regular expression in `procmon_parse`. -/
structure PsRow where
  pid : String
  ppid : String
  stat : String
  lstart : String
  command : String
  deriving DecidableEq

/-- The five fields in tuple order, as joined by `" ".join(map(str, row))`. -/
def rowFields (r : PsRow) : List String :=
  [r.pid, r.ppid, r.stat, r.lstart, r.command]

/-- Python `\s` on the ASCII text `ps` produces under `LANG=C`:
space, tab, linefeed, vertical tab, form feed, carriage return. -/
def isPsSpace (c : Char) : Bool :=
  c = ' ' || c = '\t' || c = '\n' || c = '\x0b' || c = '\x0c' || c = '\r'

/-- Python `\d` on ASCII text: a decimal digit. -/
def isPsDigit (c : Char) : Bool := '0' ≤ c && c ≤ '9'

/-- The character class `[A-Za-z]`. -/
def isPsLetter (c : Char) : Bool :=
  ('A' ≤ c && c ≤ 'Z') || ('a' ≤ c && c ≤ 'z')

/-- Maximal run of characters satisfying `p`, requiring at least one
(the regex `X+` for a character class `X`; maximal munch coincides with
the regex's backtracking semantics here because in the pattern every `X+`
is followed by a token disjoint from `X`, so no shorter match can ever
succeed). -/
def munch1 (p : Char → Bool) (cs : List Char) :
    Option (List Char × List Char) :=
  match cs.span p with
  | (tk, rest) => if tk.isEmpty then none else some (tk, rest)

/-- Require a literal character. -/
def expectChar (c : Char) : List Char → Option (List Char)
  | [] => none
  | x :: xs => if x = c then some xs else none

/-- The sub-pattern `[A-Za-z]+\s+[A-Za-z]+\s+\d+\s+\d+:\d+:\d+\s+\d+` of
capture group 4 (`lstart`): returns the matched characters verbatim
(internal whitespace included) and the rest of the input. -/
def parseLstart (cs : List Char) : Option (List Char × List Char) :=
  match munch1 isPsLetter cs with
  | none => none
  | some (w1, r) =>
  match munch1 isPsSpace r with
  | none => none
  | some (s1, r) =>
  match munch1 isPsLetter r with
  | none => none
  | some (w2, r) =>
  match munch1 isPsSpace r with
  | none => none
  | some (s2, r) =>
  match munch1 isPsDigit r with
  | none => none
  | some (dom, r) =>
  match munch1 isPsSpace r with
  | none => none
  | some (s3, r) =>
  match munch1 isPsDigit r with
  | none => none
  | some (hh, r) =>
  match expectChar ':' r with
  | none => none
  | some r =>
  match munch1 isPsDigit r with
  | none => none
  | some (mm, r) =>
  match expectChar ':' r with
  | none => none
  | some r =>
  match munch1 isPsDigit r with
  | none => none
  | some (ss, r) =>
  match munch1 isPsSpace r with
  | none => none
  | some (s4, r) =>
  match munch1 isPsDigit r with
  | none => none
  | some (yyyy, r) =>
  some (w1 ++ s1 ++ w2 ++ s2 ++ dom ++ s3 ++ hh ++ [':'] ++
        mm ++ [':'] ++ ss ++ s4 ++ yyyy, r)

/-- `re.search` of the anchored pattern
`^\s*(\d+)\s+(\d+)\s+(\S+)\s+([A-Za-z]+\s+[A-Za-z]+\s+\d+\s+\d+:\d+:\d+\s+\d+)\s+(.*)`
against one line (lines contain no newline, so `.*` is the rest of the
line and `^` anchors at the start). -/
def parseLine (line : String) : Option PsRow :=
  match munch1 isPsDigit (line.data.dropWhile (fun c => isPsSpace c)) with
  | none => none
  | some (pid, r) =>
  match munch1 isPsSpace r with
  | none => none
  | some (_, r) =>
  match munch1 isPsDigit r with
  | none => none
  | some (ppid, r) =>
  match munch1 isPsSpace r with
  | none => none
  | some (_, r) =>
  match munch1 (fun c => !isPsSpace c) r with
  | none => none
  | some (stat, r) =>
  match munch1 isPsSpace r with
  | none => none
  | some (_, r) =>
  match parseLstart r with
  | none => none
  | some (lstart, r) =>
  match munch1 isPsSpace r with
  | none => none
  | some (_, r) =>
  some ⟨String.mk pid, String.mk ppid, String.mk stat,
        String.mk lstart, String.mk r⟩

/-- A defunct (zombie) row: the command both starts with `(` and ends
with `)`.  Such rows are discarded. -/
def defunct (r : PsRow) : Bool :=
  r.command.startsWith "(" && r.command.endsWith ")"

/-- The three dictionaries `procmon_parse` builds while scanning the
parsed rows: `parent` (pid → ppid, never read afterwards), `children`
(ppid → list of pids) and `index` (pid → row). -/
structure ParseState where
  parent : List (String × String)
  children : List (String × List String)
  index : List (String × PsRow)

/-- Process one parsed line: skip non-matching lines and defunct rows,
otherwise record the row in all three dictionaries. -/
def buildStep (st : ParseState) (row? : Option PsRow) : ParseState :=
  match row? with
  | none => st
  | some row =>
      if defunct row then st
      else
        { parent := dictInsert row.pid row.ppid st.parent,
          children := dictInsert row.ppid
            (((dictGet row.ppid st.children).getD []) ++ [row.pid])
            st.children,
          index := dictInsert row.pid row st.index }

/-- Scan all lines of the decoded `ps` output. -/
def build (lines : List String) : ParseState :=
  lines.foldl (fun st l => buildStep st (parseLine l)) ⟨[], [], []⟩

/-- `children.get(pid, [])`. -/
def childrenOf (st : ParseState) (pid : String) : List String :=
  (dictGet pid st.children).getD []

/-- The recursive `add(pid)`: `results[pid] = index[pid]`, then recurse
into `children.get(pid, [])`.  The source recursion is unbounded (Python
would overflow its stack on a cyclic `children` graph); here it carries
fuel, and `procmon_parse` supplies more fuel than the index has entries,
which is enough for every acyclic reachability path (see
`addFuel_mem`). -/
def addFuel (st : ParseState) : Nat → String → List (String × PsRow) →
    List (String × PsRow)
  | 0, _, results => results
  | fuel + 1, pid, results =>
      let results :=
        match dictGet pid st.index with
        | some row => dictInsert pid row results
        | none => results
      (childrenOf st pid).foldl (fun acc c => addFuel st fuel c acc) results

/-- `for pid in REGISTERED: if str(pid) in index: add(str(pid))`,
accumulating into the `results` dictionary. -/
def computeResults (st : ParseState) (registered : List Int) (fuel : Nat) :
    List (String × PsRow) :=
  registered.foldl
    (fun acc pid =>
      if dictMem (toString pid) st.index then
        addFuel st fuel (toString pid) acc
      else acc)
    []

/- ## The diff -/

/-- An addition line: `"+" + " ".join(map(str, results[addition]))`
(no separator between the marker and the first field). -/
def addLine (r : PsRow) : String := "+" ++ " ".intercalate (rowFields r)

/-- A removal line: `"-" + str(removal)`. -/
def remLine (pid : String) : String := "-" ++ pid

/-- An edit line: `"~" + " ".join(map(str, results[pid]))`. -/
def editLine (r : PsRow) : String := "~" ++ " ".intercalate (rowFields r)

/-- The nested `diff()` generator: additions (`currentkeys - lastkeys`),
then removals (`lastkeys - currentkeys`), then edits (pids of `results`
also in `last` whose rows differ).  Python iterates the two set
differences in unspecified set order; they are modelled in snapshot
order, which the claims leave unconstrained within each phase. -/
def diff (last current : List (String × PsRow)) : List String :=
  ((current.filter (fun kv => ! dictMem kv.1 last)).map
    (fun kv => addLine kv.2))
  ++ ((last.filter (fun kv => ! dictMem kv.1 current)).map
    (fun kv => remLine kv.1))
  ++ ((current.filter (fun kv =>
        dictMem kv.1 last && decide (dictGet kv.1 last ≠ some kv.2))).map
    (fun kv => editLine kv.2))

/- ## `procmon_parse` and `poll` -/

/-- `procmon_parse(output)` on the decoded `ps` output, given the
`REGISTERED` list and the previous snapshot `LASTPS`: returns the diff
lines and the new value of `LASTPS` (the freshly computed results). -/
def procmon_parse (registered : List Int) (lastps : List (String × PsRow))
    (output : String) : List String × List (String × PsRow) :=
  let st := build (output.splitOn "\n")
  let results := computeResults st registered (st.index.length + 1)
  (diff lastps results, results)

/-- `poll()`, as a function of the exit status and captured stdout of the
`ps` subprocess: on exit status 0 it parses and returns the diff lines,
updating `LASTPS`; on a non-zero exit it returns `None` and leaves
`LASTPS` untouched. -/
def poll (psExit : Int) (psOutput : String) (registered : List Int)
    (lastps : List (String × PsRow)) :
    Option (List String) × List (String × PsRow) :=
  if psExit = 0 then
    let r := procmon_parse registered lastps psOutput
    (some r.1, r.2)
  else
    (none, lastps)

/- ## Helper lemmas: dictionaries and strings -/

theorem data_append (s t : String) : (s ++ t).data = s.data ++ t.data := by
  cases s; cases t; rfl

theorem dictGet_insert_self {α β : Type} [DecidableEq α] (k : α) (v : β)
    (d : List (α × β)) : dictGet k (dictInsert k v d) = some v := by
  induction d with
  | nil => simp [dictInsert, dictGet]
  | cons kv rest ih =>
      obtain ⟨k', v'⟩ := kv
      by_cases h : k = k'
      · simp [dictInsert, dictGet, h]
      · simp [dictInsert, dictGet, h, ih]

theorem dictGet_insert_ne {α β : Type} [DecidableEq α] {q k : α} (v : β)
    (d : List (α × β)) (h : q ≠ k) :
    dictGet q (dictInsert k v d) = dictGet q d := by
  induction d with
  | nil => simp [dictInsert, dictGet, h]
  | cons kv rest ih =>
      by_cases hk : k = kv.1
      · subst hk
        simp [dictInsert, dictGet, h]
      · simp only [dictInsert, if_neg hk, dictGet]
        by_cases hq : q = kv.1
        · simp [hq]
        · simpa [hq] using ih

theorem dictMem_insert {α β : Type} [DecidableEq α] (q k : α) (v : β)
    (d : List (α × β)) :
    dictMem q (dictInsert k v d) = true ↔ q = k ∨ dictMem q d = true := by
  by_cases h : q = k
  · subst h
    simp [dictMem, dictGet_insert_self]
  · simp [dictMem, dictGet_insert_ne v d h, h]

theorem dictMem_iff_get {α β : Type} [DecidableEq α] (k : α)
    (d : List (α × β)) :
    dictMem k d = true ↔ ∃ v, dictGet k d = some v := by
  simp [dictMem, Option.isSome_iff_exists]

theorem dictMem_iff_keys {α β : Type} [DecidableEq α] (k : α)
    (d : List (α × β)) :
    dictMem k d = true ↔ k ∈ d.map Prod.fst := by
  induction d with
  | nil => simp [dictMem, dictGet]
  | cons kv rest ih =>
      by_cases h : k = kv.1
      · simp [dictMem, dictGet, h]
      · simp only [dictMem, dictGet, if_neg h] at *
        simp [ih, h]

/- ## Claim theorems: registry, squelching, kill, poll -/

/-- Claim C4 counterexample: with `5` already registered, `register(5)`
is a no-op but `deregister(5)` then removes it, so the pair does not
restore the prior registered set. -/
theorem c4_counterexample : deregister 5 (register 5 [5]) ≠ [5] := by
  decide

/-- Claim C4 (amended): for every pid `p` *not already registered*,
`register(p)` followed by `deregister(p)` restores the registered set. -/
theorem c4_register_deregister (pid : Int) (reg : List Int)
    (h : pid ∉ reg) : deregister pid (register pid reg) = reg := by
  simp only [register, if_neg h]
  have hmem : pid ∈ reg ++ [pid] := by simp
  simp only [deregister, if_pos hmem]
  rw [List.erase_append_right _ (by simpa using h)]
  simp

/-- Witness for `c4_register_deregister` at pid 3 and registered set
`[1, 2]`. -/
theorem c4_witness :
    (3 : Int) ∉ ([1, 2] : List Int) ∧
      deregister 3 (register 3 [1, 2]) = [1, 2] :=
  ⟨by decide, c4_register_deregister 3 [1, 2] (by decide)⟩

/-- Claim C8: once `QUITTING` is true, `send` — the only path to stdout —
emits nothing, for any text and any sequence of writes. -/
theorem c8_quitting_squelches :
    (∀ text, send true text = []) ∧
      ∀ texts : List String, (texts.map (send true)).flatten = [] := by
  constructor
  · intro text; rfl
  · intro texts
    induction texts with
    | nil => rfl
    | cons t ts ih => simp [send, ih]

/-- Claim C1 (the code's actual behaviour at the failing input): a `kill`
request for pid 5 with an empty process registry emits `begin 7` and then
raises `NameError` (the undefined name `error`); the `end 7 1` line the
claim requires is never emitted.  No signal is sent, and `handle`'s
try/except keeps the agent running. -/
theorem c1_kill_unknown_pid :
    handle_kill [] 7 5 = (["begin 7"], [], .error .nameError) ∧
      endLine 7 1 ∉ (handle_kill [] 7 5).1 ∧
      shouldQuitAfter (handle_kill [] 7 5).2.2 = false := by
  refine ⟨rfl, ?_, rfl⟩
  decide

/-- Claim C2 (the code's actual behaviour at the failing input): when
`poll()` returns `None` (the `ps` subprocess exited non-zero, here with
status 1), `handle_poll` raises `TypeError` from `len(None)` in its debug
log line before `begin` is reached, so nothing is emitted at all — and
`poll` leaves the `LASTPS` snapshot untouched. -/
theorem c2_poll_failure :
    handle_poll 7 none = ([], .error .typeError) ∧
      ∀ (output : String) (registered : List Int)
        (lastps : List (String × PsRow)),
        poll 1 output registered lastps = (none, lastps) := by
  refine ⟨rfl, ?_⟩
  intro output registered lastps
  simp [poll]

/-- Claim C3 counter-evidence: the outbound stream of the failing `kill`
request contains `begin 7` and no `end 7 <status>` line for any status,
so the begin/end pairing invariant does not hold for every verb and
handler outcome. -/
theorem c3_begin_without_end :
    (handle_kill [] 7 5).1 = ["begin 7"] ∧
      ∀ status : Int, endLine 7 status ∉ (handle_kill [] 7 5).1 := by
  refine ⟨rfl, ?_⟩
  intro status h
  have h1 : endLine 7 status = "begin 7" := by
    simpa [handle_kill, beginLine] using h
  have h2 : (endLine 7 status).data = "begin 7".data :=
    congrArg String.data h1
  have h3 : (endLine 7 status).data =
      'e' :: 'n' :: 'd' :: ' ' :: '7' :: ' ' :: (toString status).data := by
    show (("end " ++ toString 7 ++ " ") ++ toString status).data = _
    rw [data_append]
    rfl
  rw [h3] at h2
  have h4 : 'e' = 'b' := by
    have h5 := congrArg (fun l => l.headD ' ') h2
    simp at h5
  exact absurd h4 (by decide)

/- ## Autopoll task uniqueness (claims C9 and C10) -/

/-- Invariant tying `AUTOPOLL_TASK` to the set of live background tasks:
either no task is live, or exactly the one the handle points at. -/
def autopollInv (s : AutopollState) : Prop :=
  s.live = [] ∨ ∃ t, s.task = some t ∧ s.live = [t]

theorem autopollInv_init : autopollInv autopollInit := Or.inl rfl

theorem autopollInv_step (s : AutopollState) (e : AgentEvent)
    (h : autopollInv s) : autopollInv (autopollStep s e) := by
  rcases e with _ | _ | _ | _ | _
  · show autopollInv (handle_autopoll s).1
    by_cases ha : s.armed
    · simpa [handle_autopoll, ha] using h
    · rcases ht : s.task with _ | t
      · rcases h with h | ⟨t', ht', _⟩
        · simp [handle_autopoll, ha, ht, autopollInv, h]
        · rw [ht] at ht'; cases ht'
      · simpa [handle_autopoll, ha, ht, autopollInv] using h
  · simpa [autopollStep, autopollInv] using h
  · rcases ht : s.task with _ | t
    · simpa [autopollStep, ht, autopollInv] using h
    · rcases h with h | ⟨t', ht', hl⟩
      · simp [autopollStep, ht, autopollInv, h]
      · rw [ht] at ht'; cases ht'
        simp [autopollStep, ht, autopollInv, hl]
  · rcases ht : s.task with _ | t
    · simpa [autopollStep, ht, autopollInv] using h
    · rcases h with h | ⟨t', ht', hl⟩
      · simp [autopollStep, ht, autopollInv, h]
      · rw [ht] at ht'; cases ht'
        simp [autopollStep, ht, autopollInv, hl]
  · simpa [autopollStep] using h

theorem autopollInv_run (events : List AgentEvent) :
    ∀ s, autopollInv s → autopollInv (autopollRun s events) := by
  induction events with
  | nil => intro s h; exact h
  | cons e es ih =>
      intro s h
      exact ih _ (autopollInv_step s e h)

/-- Re-invoking `autopoll` when `AUTOPOLL_TASK` already holds a task only
sets the armed flag and creates nothing. -/
theorem handle_autopoll_existing (armed : Bool) (t : Nat) (live : List Nat)
    (nid : Nat) :
    handle_autopoll ⟨armed, some t, live, nid⟩ =
      (⟨true, some t, live, nid⟩, false) := by
  cases armed <;> rfl

/-- Claim C9: in every sequence of requests and task events starting from
the initial state, at most one autopoll background task is live at a time;
and when the task handle already exists, `handle_autopoll` only sets the
armed flag and does not create a second task. -/
theorem c9_at_most_one_task :
    (∀ events : List AgentEvent,
        (autopollRun autopollInit events).live.length ≤ 1) ∧
      ∀ (armed : Bool) (t : Nat) (live : List Nat) (nid : Nat),
        handle_autopoll ⟨armed, some t, live, nid⟩ =
          (⟨true, some t, live, nid⟩, false) := by
  constructor
  · intro events
    have h := autopollInv_run events autopollInit autopollInv_init
    rcases h with h | ⟨t, _, h⟩ <;> simp [h]
  · exact handle_autopoll_existing

/-- Claim C10: once one of the autopoll loop's `poll()` calls returns the
failure indicator (`None`), the `TypeError` raised by `len(None)` ends the
background task, so the lines it emits are exactly those from the polls
before the failure — whatever comes after contributes nothing; and since
`AUTOPOLL_TASK` still holds the finished task, later `autopoll` requests
only re-arm the flag without creating a new task, so no `%autopoll` frame
is ever emitted again. -/
theorem c10_autopoll_dies_after_failed_poll :
    (∀ (polls post : List (Option (List String))) (ids : List Nat),
        autopollEmit (polls ++ none :: post) ids = autopollEmit polls ids) ∧
      ∀ (armed : Bool) (t : Nat) (live : List Nat) (nid : Nat),
        handle_autopoll ⟨armed, some t, live, nid⟩ =
          (⟨true, some t, live, nid⟩, false) := by
  constructor
  · intro polls post
    induction polls with
    | nil => intro ids; rfl
    | cons p rest ih =>
        intro ids
        rcases p with _ | d
        · rfl
        · rcases d with _ | ⟨d, ds⟩
          · exact ih ids
          · simp [autopollEmit, ih ids.tail]
  · exact handle_autopoll_existing

/- ## The diff (claim C5) -/

/-- A concrete snapshot row for the claim C5 counterexample. -/
def c5row : PsRow := ⟨"5", "1", "S", "Mon Jan 6 00:00:00 2025", "sh"⟩

/-- Claim C5 counterexample: for the concrete snapshot pair
(previous empty, current containing pid 5), the single addition line the
code emits is `+5 1 S …` — the marker is concatenated directly to the pid
— and not the claimed `+ 5 1 S …` with a space after the marker
(`"+" + " ".join(row)` puts no separator between `+` and the first
field). -/
theorem c5_counterexample :
    diff [] [("5", c5row)] = ["+5 1 S Mon Jan 6 00:00:00 2025 sh"] ∧
      "+5 1 S Mon Jan 6 00:00:00 2025 sh" ≠
        "+ " ++ " ".intercalate (rowFields c5row) := by
  constructor
  · rfl
  · decide

/-- Claim C5 (amended): the diff list consists of, in this order: one line
`+pid ppid stat lstart command` for each pid in the current snapshot but
not the previous, one line `-pid` for each pid in the previous but not the
current, and one line `~pid ppid stat lstart command` for each pid present
in both whose row tuples differ — with no separator between the marker
character and the first field. -/
theorem c5_diff_phases (last current : List (String × PsRow)) :
    diff last current =
      ((current.filter (fun kv => decide (dictGet kv.1 last = none))).map
        (fun kv => "+" ++ " ".intercalate (rowFields kv.2)))
      ++ ((last.filter (fun kv => decide (dictGet kv.1 current = none))).map
        (fun kv => "-" ++ kv.1))
      ++ ((current.filter (fun kv => decide (dictGet kv.1 last ≠ none ∧
            dictGet kv.1 last ≠ some kv.2))).map
        (fun kv => "~" ++ " ".intercalate (rowFields kv.2))) := by
  have hadd : current.filter (fun kv => ! dictMem kv.1 last)
      = current.filter (fun kv => decide (dictGet kv.1 last = none)) :=
    List.filter_congr (by
      intro kv _
      rcases h : dictGet kv.1 last with _ | r <;> simp [dictMem, h])
  have hrem : last.filter (fun kv => ! dictMem kv.1 current)
      = last.filter (fun kv => decide (dictGet kv.1 current = none)) :=
    List.filter_congr (by
      intro kv _
      rcases h : dictGet kv.1 current with _ | r <;> simp [dictMem, h])
  have hedit : current.filter (fun kv =>
        dictMem kv.1 last && decide (dictGet kv.1 last ≠ some kv.2))
      = current.filter (fun kv => decide (dictGet kv.1 last ≠ none ∧
          dictGet kv.1 last ≠ some kv.2)) :=
    List.filter_congr (by
      intro kv _
      rcases h : dictGet kv.1 last with _ | r <;> simp [dictMem, h])
  unfold diff addLine remLine editLine
  rw [hadd, hrem, hedit]

/- ## Output framing (claim C7) -/

theorem wrap128_cons (c : Char) (cs : List Char) :
    wrap128 (c :: cs) =
      ((c :: cs).take 128) :: wrap128 ((c :: cs).drop 128) := by
  rw [wrap128]

theorem wrap128_flatten (l : List Char) : (wrap128 l).flatten = l := by
  induction l using wrap128.induct with
  | case1 => simp [wrap128]
  | case2 c cs ih =>
      rw [wrap128_cons, List.flatten_cons, ih, List.take_append_drop]

theorem wrap128_ne_nil (l : List Char) (h : l ≠ []) : wrap128 l ≠ [] := by
  cases l with
  | nil => exact absurd rfl h
  | cons c cs => rw [wrap128_cons]; simp

theorem wrap128_bounds (l : List Char) :
    ∀ x ∈ wrap128 l, 0 < x.length ∧ x.length ≤ 128 := by
  induction l using wrap128.induct with
  | case1 => simp [wrap128]
  | case2 c cs ih =>
      intro x hx
      rw [wrap128_cons] at hx
      rcases List.mem_cons.mp hx with hx1 | hx2
      · subst hx1
        simp [List.length_take]
      · exact ih x hx2

theorem wrap128_dropLast_length (l : List Char) :
    ∀ x ∈ (wrap128 l).dropLast, x.length = 128 := by
  induction l using wrap128.induct with
  | case1 => simp [wrap128]
  | case2 c cs ih =>
      intro x hx
      rw [wrap128_cons] at hx
      rcases h : wrap128 ((c :: cs).drop 128) with _ | ⟨y, ys⟩
      · rw [h] at hx
        simp at hx
      · rw [h] at hx
        simp only [List.dropLast_cons₂, List.mem_cons] at hx
        rcases hx with hx1 | hx2
        · subst hx1
          have hd : (c :: cs).drop 128 ≠ [] := by
            intro hnil
            rw [hnil] at h
            simp [wrap128] at h
          have hlen : 128 < (c :: cs).length := by
            by_contra hlt
            push_neg at hlt
            exact hd (List.drop_eq_nil_of_le hlt)
          simp only [List.length_cons] at hlen
          simp [List.length_take]
          omega
        · refine ih x ?_
          rw [h]
          simpa using hx2

theorem string_append_assoc (a b c : String) :
    a ++ b ++ c = a ++ (b ++ c) := by
  cases a; cases b; cases c
  exact congrArg String.mk (List.append_assoc _ _ _)

theorem foldr_append_mk (L : List (List Char)) :
    (L.map String.mk).foldr (· ++ ·) "" = String.mk L.flatten := by
  induction L with
  | nil => rfl
  | cons a L ih =>
      simp only [List.map_cons, List.foldr_cons, ih, List.flatten_cons]
      rfl

theorem b64encode_ne_nil (data : List Nat) (h : data ≠ []) :
    b64encode data ≠ [] := by
  match data with
  | [] => exact absurd rfl h
  | [a] => simp [b64encode]
  | [a, b] => simp [b64encode]
  | a :: b :: c :: rest => simp [b64encode]

/-- Claim C7: for every non-empty chunk of child output, the emitted frame
is the `%output <identifier> <pid> <channel>` header — channel is literally
`-1` when the process was started by `login`, and `1` (the channel the read
pump passes) when started by `run` — followed by the base64 encoding of the
chunk split into lines of exactly 128 characters each except that the last
line may be shorter, followed by `%end <identifier>`; the concatenation of
the payload lines is exactly the base64 encoding of the chunk. -/
theorem c7_output_frame (identifier : Nat) (pid : Int) (channel : Int)
    (data : List Nat) (h : data ≠ []) :
    print_output identifier pid channel true data =
        ("%output " ++ toString identifier ++ " " ++ toString pid ++ " -1")
          :: (wrap128 (b64encode data)).map String.mk
          ++ ["%end " ++ toString identifier] ∧
      print_output identifier pid 1 false data =
        ("%output " ++ toString identifier ++ " " ++ toString pid ++ " 1")
          :: (wrap128 (b64encode data)).map String.mk
          ++ ["%end " ++ toString identifier] ∧
      (wrap128 (b64encode data)).map String.mk ≠ [] ∧
      (∀ line ∈ ((wrap128 (b64encode data)).map String.mk).dropLast,
          line.length = 128) ∧
      (∀ line ∈ (wrap128 (b64encode data)).map String.mk,
          0 < line.length ∧ line.length ≤ 128) ∧
      ((wrap128 (b64encode data)).map String.mk).foldr (· ++ ·) "" =
        String.mk (b64encode data) := by
  refine ⟨rfl, ?_, ?_, ?_, ?_, ?_⟩
  · show (("%output " ++ toString identifier ++ " " ++ toString pid ++ " ")
        ++ toString (1 : Int))
        :: (wrap128 (b64encode data)).map String.mk
        ++ ["%end " ++ toString identifier] = _
    rw [string_append_assoc
      ("%output " ++ toString identifier ++ " " ++ toString pid)]
    rfl
  · simp only [ne_eq, List.map_eq_nil_iff]
    exact wrap128_ne_nil _ (b64encode_ne_nil data h)
  · intro line hline
    rw [← List.map_dropLast] at hline
    obtain ⟨x, hx, rfl⟩ := List.mem_map.mp hline
    exact wrap128_dropLast_length _ x hx
  · intro line hline
    obtain ⟨x, hx, rfl⟩ := List.mem_map.mp hline
    exact wrap128_bounds _ x hx
  · rw [foldr_append_mk, wrap128_flatten]

/-- Witness for `c7_output_frame` with data `[104, 105]` (the bytes of
`hi`, whose base64 encoding is `aGk=`), identifier 9, pid 42. -/
theorem c7_witness :
    ([104, 105] : List Nat) ≠ [] ∧
      (print_output 9 42 5 true [104, 105] =
          ("%output " ++ toString (9 : Nat) ++ " " ++ toString (42 : Int)
              ++ " -1")
            :: (wrap128 (b64encode [104, 105])).map String.mk
            ++ ["%end " ++ toString (9 : Nat)] ∧
        print_output 9 42 1 false [104, 105] =
          ("%output " ++ toString (9 : Nat) ++ " " ++ toString (42 : Int)
              ++ " 1")
            :: (wrap128 (b64encode [104, 105])).map String.mk
            ++ ["%end " ++ toString (9 : Nat)] ∧
        (wrap128 (b64encode [104, 105])).map String.mk ≠ [] ∧
        (∀ line ∈ ((wrap128 (b64encode [104, 105])).map String.mk).dropLast,
            line.length = 128) ∧
        (∀ line ∈ (wrap128 (b64encode [104, 105])).map String.mk,
            0 < line.length ∧ line.length ≤ 128) ∧
        ((wrap128 (b64encode [104, 105])).map String.mk).foldr (· ++ ·) "" =
          String.mk (b64encode [104, 105])) :=
  ⟨by decide, c7_output_frame 9 42 5 [104, 105] (by decide)⟩


/- ## The monitor snapshot (claim C6) -/


/-- One parent-to-child edge of the `children` index. -/
def childStep (st : ParseState) (a b : String) : Prop := b ∈ childrenOf st a

/-- `b` equals `a` or is a transitive descendant of `a` via `children`. -/
def descendant (st : ParseState) (a b : String) : Prop :=
  Relation.ReflTransGen (childStep st) a b

/-- Reachability within `n` child-steps. -/
def reachN (st : ParseState) : Nat → String → String → Prop
  | 0, _, _ => False
  | n + 1, a, b => a = b ∨ ∃ c ∈ childrenOf st a, reachN st n c b

/-- `isPath R a l b`: `l` lists the successive nodes visited after `a`,
ending at `b` (`l = []` means `a = b`). -/
def isPath {α : Type} (R : α → α → Prop) : α → List α → α → Prop
  | a, [], b => a = b
  | a, c :: l, b => R a c ∧ isPath R c l b

theorem reachN_mono (st : ParseState) :
    ∀ (m n : Nat), m ≤ n → ∀ a b, reachN st m a b → reachN st n a b := by
  intro m
  induction m with
  | zero => intro n _ a b h; exact absurd h (by simp [reachN])
  | succ m ih =>
      intro n hmn a b h
      rcases n with _ | n
      · omega
      · simp only [reachN] at h ⊢
        rcases h with h | ⟨c, hc, h⟩
        · exact Or.inl h
        · exact Or.inr ⟨c, hc, ih n (by omega) c b h⟩

theorem reachN_descendant (st : ParseState) :
    ∀ (n : Nat) (a b : String), reachN st n a b → descendant st a b := by
  intro n
  induction n with
  | zero => intro a b h; exact absurd h (by simp [reachN])
  | succ n ih =>
      intro a b h
      simp only [reachN] at h
      rcases h with rfl | ⟨c, hc, h⟩
      · exact Relation.ReflTransGen.refl
      · exact Relation.ReflTransGen.head hc (ih c b h)

theorem isPath_append {α : Type} (R : α → α → Prop) :
    ∀ (l : List α) (a b c : α), isPath R a l b → R b c →
      isPath R a (l ++ [c]) c := by
  intro l
  induction l with
  | nil =>
      intro a b c hp hR
      cases hp
      exact ⟨hR, rfl⟩
  | cons x l ih =>
      intro a b c hp hR
      exact ⟨hp.1, ih x b c hp.2 hR⟩

theorem descendant_iff_path (st : ParseState) (a b : String) :
    descendant st a b ↔ ∃ l, isPath (childStep st) a l b := by
  constructor
  · intro h
    induction h with
    | refl => exact ⟨[], rfl⟩
    | tail _ hstep ih =>
        obtain ⟨l, hl⟩ := ih
        exact ⟨l ++ [_], isPath_append _ l _ _ _ hl hstep⟩
  · rintro ⟨l, hl⟩
    induction l generalizing a with
    | nil => cases hl; exact Relation.ReflTransGen.refl
    | cons c l ih => exact Relation.ReflTransGen.head hl.1 (ih c hl.2)

theorem isPath_reachN (st : ParseState) :
    ∀ (l : List String) (a b : String), isPath (childStep st) a l b →
      reachN st (l.length + 1) a b := by
  intro l
  induction l with
  | nil =>
      intro a b h
      cases h
      exact Or.inl rfl
  | cons c l ih =>
      intro a b h
      exact Or.inr ⟨c, h.1, ih c b h.2⟩

theorem isPath_drop {α : Type} (R : α → α → Prop) :
    ∀ (u : List α) (x : α) (v : List α) (a b : α),
      isPath R a (u ++ x :: v) b → isPath R x v b := by
  intro u
  induction u with
  | nil => intro x v a b h; exact h.2
  | cons w u ih => intro x v a b h; exact ih x v w b h.2

theorem isPath_take {α : Type} (R : α → α → Prop) :
    ∀ (u : List α) (x : α) (v : List α) (a b : α),
      isPath R a (u ++ x :: v) b → isPath R a (u ++ [x]) x := by
  intro u
  induction u with
  | nil => intro x v a b h; exact ⟨h.1, rfl⟩
  | cons w u ih => intro x v a b h; exact ⟨h.1, ih x v w b h.2⟩

theorem isPath_glue {α : Type} (R : α → α → Prop) :
    ∀ (u : List α) (x : α) (v : List α) (a b : α),
      isPath R a (u ++ [x]) x → isPath R x v b →
      isPath R a (u ++ x :: v) b := by
  intro u
  induction u with
  | nil =>
      intro x v a b h1 h2
      exact ⟨h1.1, h2⟩
  | cons w u ih =>
      intro x v a b h1 h2
      exact ⟨h1.1, ih x v w b h1.2 h2⟩

theorem exists_dup_decomp {α : Type} :
    ∀ (l : List α), ¬ l.Nodup →
      ∃ (x : α) (l₁ l₂ l₃ : List α), l = l₁ ++ x :: (l₂ ++ x :: l₃) := by
  intro l
  induction l with
  | nil => intro h; exact absurd List.nodup_nil h
  | cons a t ih =>
      intro h
      by_cases ha : a ∈ t
      · obtain ⟨s₁, s₂, rfl⟩ := List.append_of_mem ha
        exact ⟨a, [], s₁, s₂, by simp⟩
      · have ht : ¬ t.Nodup := fun hn => h (List.nodup_cons.mpr ⟨ha, hn⟩)
        obtain ⟨x, l₁, l₂, l₃, rfl⟩ := ih ht
        exact ⟨x, a :: l₁, l₂, l₃, by simp⟩

theorem isPath_shorten {α : Type} (R : α → α → Prop) :
    ∀ (n : Nat) (l : List α) (a b : α), l.length ≤ n →
      isPath R a l b →
      ∃ l', isPath R a l' b ∧ l'.length ≤ l.length ∧ (a :: l').Nodup := by
  intro n
  induction n with
  | zero =>
      intro l a b hl hp
      have : l = [] := List.length_eq_zero.mp (Nat.le_antisymm hl (Nat.zero_le _))
      subst this
      exact ⟨[], hp, le_rfl, List.nodup_singleton a⟩
  | succ n ih =>
      intro l a b hl hp
      by_cases hnd : (a :: l).Nodup
      · exact ⟨l, hp, le_rfl, hnd⟩
      · obtain ⟨x, l₁, l₂, l₃, heq⟩ := exists_dup_decomp _ hnd
        cases l₁ with
        | nil =>
            simp only [List.nil_append] at heq
            injection heq with h1 h2
            subst h1
            subst h2
            have hp' : isPath R a l₃ b := isPath_drop R l₂ a l₃ a b hp
            have hl3 : l₃.length ≤ n := by
              have := congrArg List.length (rfl :
                (l₂ ++ a :: l₃ : List α) = l₂ ++ a :: l₃)
              simp only [List.length_append, List.length_cons] at hl
              omega
            obtain ⟨l', h1', h2', h3'⟩ := ih l₃ a b hl3 hp'
            refine ⟨l', h1', ?_, h3'⟩
            simp only [List.length_append, List.length_cons]
            omega
        | cons a0 t =>
            simp only [List.cons_append] at heq
            injection heq with h1 h2
            subst h1
            subst h2
            have hpre : isPath R a (t ++ [x]) x := isPath_take R t x _ a b hp
            have hsuf : isPath R x l₃ b :=
              isPath_drop R l₂ x l₃ x b (isPath_drop R t x _ a b hp)
            have hglue : isPath R a (t ++ x :: l₃) b :=
              isPath_glue R t x l₃ a b hpre hsuf
            have hlen : (t ++ x :: l₃).length ≤ n := by
              simp only [List.length_append, List.length_cons] at hl ⊢
              omega
            obtain ⟨l', h1', h2', h3'⟩ := ih _ a b hlen hglue
            refine ⟨l', h1', ?_, h3'⟩
            simp only [List.length_append, List.length_cons] at h2' ⊢
            omega

theorem isPath_mem_index (st : ParseState)
    (hchild : ∀ p q, q ∈ childrenOf st p → dictMem q st.index = true) :
    ∀ (l : List String) (a b : String), isPath (childStep st) a l b →
      ∀ x ∈ l, dictMem x st.index = true := by
  intro l
  induction l with
  | nil => intro a b _ x hx; cases hx
  | cons c l ih =>
      intro a b h x hx
      rcases List.mem_cons.mp hx with rfl | hx
      · exact hchild a x h.1
      · exact ih c b h.2 x hx

theorem descendant_mem_index (st : ParseState)
    (hchild : ∀ p q, q ∈ childrenOf st p → dictMem q st.index = true)
    (a b : String) (ha : dictMem a st.index = true)
    (h : descendant st a b) : dictMem b st.index = true := by
  induction h with
  | refl => exact ha
  | tail _ hstep ih => exact hchild _ _ hstep

theorem descendant_reachN (st : ParseState)
    (hchild : ∀ p q, q ∈ childrenOf st p → dictMem q st.index = true)
    (a b : String) (h : descendant st a b) :
    reachN st (st.index.length + 1) a b := by
  obtain ⟨l, hp⟩ := (descendant_iff_path st a b).mp h
  obtain ⟨l', hp', _, hnd⟩ :=
    isPath_shorten (childStep st) l.length l a b le_rfl hp
  have hsub : l' ⊆ st.index.map Prod.fst := by
    intro x hx
    exact (dictMem_iff_keys x st.index).mp
      (isPath_mem_index st hchild l' a b hp' x hx)
  have hlen : l'.length ≤ st.index.length := by
    have := (List.subperm_of_subset (List.Nodup.of_cons hnd) hsub).length_le
    simpa using this
  exact reachN_mono st (l'.length + 1) (st.index.length + 1) (by omega) a b
    (isPath_reachN st l' a b hp')

theorem addFuel_mem (st : ParseState) :
    ∀ (fuel : Nat) (p q : String) (acc : List (String × PsRow)),
      dictMem q (addFuel st fuel p acc) = true ↔
        dictMem q acc = true ∨
          (reachN st fuel p q ∧ dictMem q st.index = true) := by
  intro fuel
  induction fuel with
  | zero => intro p q acc; simp [addFuel, reachN]
  | succ fuel ih =>
      intro p q acc
      have hfold : ∀ (cs : List String) (acc : List (String × PsRow)),
          dictMem q (cs.foldl (fun a c => addFuel st fuel c a) acc) = true ↔
            dictMem q acc = true ∨
              ∃ c ∈ cs, reachN st fuel c q ∧ dictMem q st.index = true := by
        intro cs
        induction cs with
        | nil => intro acc; simp
        | cons c cs ihc =>
            intro acc
            rw [List.foldl_cons, ihc (addFuel st fuel c acc), ih c q acc]
            constructor
            · rintro ((h | ⟨hr, hi⟩) | ⟨c', hc', hr, hi⟩)
              · exact Or.inl h
              · exact Or.inr ⟨c, List.mem_cons_self c cs, hr, hi⟩
              · exact Or.inr ⟨c', List.mem_cons_of_mem c hc', hr, hi⟩
            · rintro (h | ⟨c', hc', hr, hi⟩)
              · exact Or.inl (Or.inl h)
              · rcases List.mem_cons.mp hc' with rfl | hc'
                · exact Or.inl (Or.inr ⟨hr, hi⟩)
                · exact Or.inr ⟨c', hc', hr, hi⟩
      show dictMem q (addFuel st (fuel + 1) p acc) = true ↔ _
      rw [show addFuel st (fuel + 1) p acc =
        (childrenOf st p).foldl (fun a c => addFuel st fuel c a)
          (match dictGet p st.index with
            | some row => dictInsert p row acc
            | none => acc) from rfl]
      rw [hfold]
      rcases hidx : dictGet p st.index with _ | row
      · simp only [reachN]
        constructor
        · rintro (h | ⟨c, hc, hr, hi⟩)
          · exact Or.inl h
          · exact Or.inr ⟨Or.inr ⟨c, hc, hr⟩, hi⟩
        · rintro (h | ⟨rfl | ⟨c, hc, hr⟩, hi⟩)
          · exact Or.inl h
          · rw [dictMem, hidx] at hi
            cases hi
          · exact Or.inr ⟨c, hc, hr, hi⟩
      · rw [dictMem_insert]
        simp only [reachN]
        constructor
        · rintro ((rfl | h) | ⟨c, hc, hr, hi⟩)
          · exact Or.inr ⟨Or.inl rfl, by rw [dictMem, hidx]; rfl⟩
          · exact Or.inl h
          · exact Or.inr ⟨Or.inr ⟨c, hc, hr⟩, hi⟩
        · rintro (h | ⟨rfl | ⟨c, hc, hr⟩, hi⟩)
          · exact Or.inl (Or.inr h)
          · exact Or.inl (Or.inl rfl)
          · exact Or.inr ⟨c, hc, hr, hi⟩

theorem addFuel_get (st : ParseState) :
    ∀ (fuel : Nat) (p q : String) (acc : List (String × PsRow))
      (row : PsRow),
      dictGet q (addFuel st fuel p acc) = some row →
        dictGet q acc = some row ∨ dictGet q st.index = some row := by
  intro fuel
  induction fuel with
  | zero => intro p q acc row h; exact Or.inl h
  | succ fuel ih =>
      intro p q acc row
      have hfold : ∀ (cs : List String) (acc : List (String × PsRow)),
          dictGet q (cs.foldl (fun a c => addFuel st fuel c a) acc) =
              some row →
            dictGet q acc = some row ∨ dictGet q st.index = some row := by
        intro cs
        induction cs with
        | nil => intro acc h; exact Or.inl h
        | cons c cs ihc =>
            intro acc h
            rcases ihc (addFuel st fuel c acc) h with h' | h'
            · exact ih c q acc row h'
            · exact Or.inr h'
      intro h
      rw [show addFuel st (fuel + 1) p acc =
        (childrenOf st p).foldl (fun a c => addFuel st fuel c a)
          (match dictGet p st.index with
            | some r => dictInsert p r acc
            | none => acc) from rfl] at h
      rcases hidx : dictGet p st.index with _ | r
      · rw [hidx] at h
        exact hfold _ _ h
      · rw [hidx] at h
        rcases hfold _ _ h with h' | h'
        · by_cases hq : q = p
          · subst hq
            rw [dictGet_insert_self] at h'
            cases h'
            exact Or.inr hidx
          · rw [dictGet_insert_ne r acc hq] at h'
            exact Or.inl h'
        · exact Or.inr h'

theorem computeResults_mem (st : ParseState) (registered : List Int)
    (fuel : Nat) (q : String) :
    dictMem q (computeResults st registered fuel) = true ↔
      ∃ root ∈ registered, dictMem (toString root) st.index = true ∧
        reachN st fuel (toString root) q ∧ dictMem q st.index = true := by
  have haux : ∀ (regs : List Int) (acc : List (String × PsRow)),
      dictMem q (regs.foldl
        (fun acc pid =>
          if dictMem (toString pid) st.index then
            addFuel st fuel (toString pid) acc
          else acc) acc) = true ↔
        dictMem q acc = true ∨
          ∃ root ∈ regs, dictMem (toString root) st.index = true ∧
            reachN st fuel (toString root) q ∧
            dictMem q st.index = true := by
    intro regs
    induction regs with
    | nil => intro acc; simp
    | cons r regs ihr =>
        intro acc
        rw [List.foldl_cons]
        by_cases hr : dictMem (toString r) st.index = true
        · rw [if_pos hr, ihr, addFuel_mem]
          constructor
          · rintro ((h | ⟨hre, hi⟩) | ⟨root, hroot, hidx, hre, hi⟩)
            · exact Or.inl h
            · exact Or.inr ⟨r, List.mem_cons_self r regs, hr, hre, hi⟩
            · exact Or.inr ⟨root, List.mem_cons_of_mem r hroot, hidx, hre, hi⟩
          · rintro (h | ⟨root, hroot, hidx, hre, hi⟩)
            · exact Or.inl (Or.inl h)
            · rcases List.mem_cons.mp hroot with rfl | hroot
              · exact Or.inl (Or.inr ⟨hre, hi⟩)
              · exact Or.inr ⟨root, hroot, hidx, hre, hi⟩
        · rw [if_neg hr, ihr]
          constructor
          · rintro (h | ⟨root, hroot, hidx, hre, hi⟩)
            · exact Or.inl h
            · exact Or.inr ⟨root, List.mem_cons_of_mem r hroot, hidx, hre, hi⟩
          · rintro (h | ⟨root, hroot, hidx, hre, hi⟩)
            · exact Or.inl h
            · rcases List.mem_cons.mp hroot with rfl | hroot
              · exact absurd hidx hr
              · exact Or.inr ⟨root, hroot, hidx, hre, hi⟩
  rw [show computeResults st registered fuel = registered.foldl
    (fun acc pid =>
      if dictMem (toString pid) st.index then
        addFuel st fuel (toString pid) acc
      else acc) [] from rfl, haux]
  simp [dictMem, dictGet]

theorem computeResults_get (st : ParseState) (registered : List Int)
    (fuel : Nat) (q : String) (row : PsRow)
    (h : dictGet q (computeResults st registered fuel) = some row) :
    dictGet q st.index = some row := by
  have haux : ∀ (regs : List Int) (acc : List (String × PsRow)),
      dictGet q (regs.foldl
        (fun acc pid =>
          if dictMem (toString pid) st.index then
            addFuel st fuel (toString pid) acc
          else acc) acc) = some row →
        dictGet q acc = some row ∨ dictGet q st.index = some row := by
    intro regs
    induction regs with
    | nil => intro acc h'; exact Or.inl h'
    | cons r regs ihr =>
        intro acc h'
        rw [List.foldl_cons] at h'
        by_cases hr : dictMem (toString r) st.index = true
        · rw [if_pos hr] at h'
          rcases ihr _ h' with h'' | h''
          · exact addFuel_get st fuel (toString r) q acc row h''
          · exact Or.inr h''
        · rw [if_neg hr] at h'
          exact ihr _ h'
  rcases haux registered [] h with h' | h'
  · cases h'
  · exact h'

theorem dictMem_mono {α β : Type} [DecidableEq α] {q k : α} {v : β}
    {d : List (α × β)} (h : dictMem q d = true) :
    dictMem q (dictInsert k v d) = true :=
  (dictMem_insert q k v d).mpr (Or.inr h)

theorem buildStep_children_sub_index (st : ParseState)
    (row? : Option PsRow)
    (h : ∀ p q, q ∈ childrenOf st p → dictMem q st.index = true) :
    ∀ p q, q ∈ childrenOf (buildStep st row?) p →
      dictMem q (buildStep st row?).index = true := by
  rcases row? with _ | row
  · exact h
  · by_cases hd : defunct row
    · simpa [buildStep, hd] using h
    · have hstep : buildStep st (some row) =
          { parent := dictInsert row.pid row.ppid st.parent,
            children := dictInsert row.ppid
              (((dictGet row.ppid st.children).getD []) ++ [row.pid])
              st.children,
            index := dictInsert row.pid row st.index } := by
        simp [buildStep, hd]
      intro p q hq
      rw [hstep] at hq ⊢
      by_cases hp : p = row.ppid
      · subst hp
        rw [childrenOf, dictGet_insert_self] at hq
        simp only [Option.getD_some] at hq
        rcases List.mem_append.mp hq with hq | hq
        · exact dictMem_mono (h _ q hq)
        · rcases List.mem_singleton.mp hq with rfl
          rw [dictMem, dictGet_insert_self]
          rfl
      · rw [childrenOf, dictGet_insert_ne _ _ hp] at hq
        exact dictMem_mono (h p q hq)

theorem build_children_sub_index (lines : List String) :
    ∀ p q, q ∈ childrenOf (build lines) p →
      dictMem q (build lines).index = true := by
  suffices haux : ∀ (ls : List String) (st : ParseState),
      (∀ p q, q ∈ childrenOf st p → dictMem q st.index = true) →
      ∀ p q, q ∈ childrenOf (ls.foldl
          (fun st l => buildStep st (parseLine l)) st) p →
        dictMem q (ls.foldl (fun st l => buildStep st (parseLine l)) st).index
          = true by
    apply haux
    intro p q hq
    simp [childrenOf, dictGet] at hq
  intro ls
  induction ls with
  | nil => intro st h; exact h
  | cons l ls ih =>
      intro st h
      exact ih _ (buildStep_children_sub_index st (parseLine l) h)

theorem build_index_mem (lines : List String) (pid : String) :
    dictMem pid (build lines).index = true ↔
      ∃ line ∈ lines, ∃ r, parseLine line = some r ∧ defunct r = false ∧
        r.pid = pid := by
  suffices haux : ∀ (ls : List String) (st : ParseState),
      dictMem pid (ls.foldl (fun st l => buildStep st (parseLine l)) st).index
          = true ↔
        dictMem pid st.index = true ∨
          ∃ line ∈ ls, ∃ r, parseLine line = some r ∧ defunct r = false ∧
            r.pid = pid by
    rw [build, haux]
    simp [dictMem, dictGet]
  intro ls
  induction ls with
  | nil => intro st; simp
  | cons l ls ih =>
      intro st
      rw [List.foldl_cons, ih]
      rcases hp : parseLine l with _ | r
      · simp only [buildStep]
        constructor
        · rintro (h | ⟨line, hline, hr⟩)
          · exact Or.inl h
          · exact Or.inr ⟨line, List.mem_cons_of_mem l hline, hr⟩
        · rintro (h | ⟨line, hline, r, hr, hd', hpid⟩)
          · exact Or.inl h
          · rcases List.mem_cons.mp hline with rfl | hline
            · rw [hp] at hr; cases hr
            · exact Or.inr ⟨line, hline, r, hr, hd', hpid⟩
      · by_cases hd : defunct r
        · have hstep : buildStep st (some r) = st := by
            simp [buildStep, hd]
          rw [hstep]
          constructor
          · rintro (h | ⟨line, hline, hr⟩)
            · exact Or.inl h
            · exact Or.inr ⟨line, List.mem_cons_of_mem l hline, hr⟩
          · rintro (h | ⟨line, hline, r', hr', hd', hpid⟩)
            · exact Or.inl h
            · rcases List.mem_cons.mp hline with rfl | hline
              · rw [hp] at hr'
                cases hr'
                rw [hd] at hd'
                cases hd'
              · exact Or.inr ⟨line, hline, r', hr', hd', hpid⟩
        · have hstep : buildStep st (some r) =
              { parent := dictInsert r.pid r.ppid st.parent,
                children := dictInsert r.ppid
                  (((dictGet r.ppid st.children).getD []) ++ [r.pid])
                  st.children,
                index := dictInsert r.pid r st.index } := by
            simp [buildStep, hd]
          rw [hstep]
          simp only [dictMem_insert]
          constructor
          · rintro ((rfl | h) | ⟨line, hline, hr⟩)
            · exact Or.inr ⟨l, List.mem_cons_self l ls,
                r, hp, Bool.not_eq_true _ ▸ (by simpa using hd), rfl⟩
            · exact Or.inl h
            · exact Or.inr ⟨line, List.mem_cons_of_mem l hline, hr⟩
          · rintro (h | ⟨line, hline, r', hr', hd', hpid⟩)
            · exact Or.inl (Or.inr h)
            · rcases List.mem_cons.mp hline with rfl | hline
              · rw [hp] at hr'
                cases hr'
                exact Or.inl (Or.inl hpid.symm)
              · exact Or.inr ⟨line, hline, r', hr', hd', hpid⟩

/-- Claim C6: for every `ps` output, the snapshot produced by a poll
contains exactly the rows whose line matches the fixed regular expression
and whose command does not both start with `(` and end with `)` (third
conjunct characterizes the index; second conjunct says every snapshot row
is an index row), and whose pid is a registered pid (coerced to string and
present in the parsed index) or a transitive descendant of one via the
ppid child index; it is the union of these sets over all registered roots
(first conjunct). -/
theorem c6_snapshot (registered : List Int)
    (lastps : List (String × PsRow)) (output : String) :
    (∀ pid : String,
        dictMem pid (procmon_parse registered lastps output).2 = true ↔
          ∃ root ∈ registered,
            dictMem (toString root) (build (output.splitOn "\n")).index
                = true ∧
              descendant (build (output.splitOn "\n")) (toString root) pid) ∧
      (∀ (pid : String) (row : PsRow),
          dictGet pid (procmon_parse registered lastps output).2 = some row →
            dictGet pid (build (output.splitOn "\n")).index = some row) ∧
      (∀ pid : String,
          dictMem pid (build (output.splitOn "\n")).index = true ↔
            ∃ line ∈ output.splitOn "\n", ∃ r, parseLine line = some r ∧
              defunct r = false ∧ r.pid = pid) := by
  have hchild := build_children_sub_index (output.splitOn "\n")
  have heq : (procmon_parse registered lastps output).2 =
      computeResults (build (output.splitOn "\n")) registered
        ((build (output.splitOn "\n")).index.length + 1) := rfl
  refine ⟨?_, ?_, build_index_mem _⟩
  · intro pid
    rw [heq, computeResults_mem]
    constructor
    · rintro ⟨root, hroot, hidx, hreach, _⟩
      exact ⟨root, hroot, hidx, reachN_descendant _ _ _ _ hreach⟩
    · rintro ⟨root, hroot, hidx, hdesc⟩
      exact ⟨root, hroot, hidx,
        descendant_reachN _ hchild _ _ hdesc,
        descendant_mem_index _ hchild _ _ hidx hdesc⟩
  · intro pid row h
    rw [heq] at h
    exact computeResults_get _ _ _ _ _ h

end Framer
